import Mathlib

/-
Verification of the OAuth 1.0a request-signing core of the twitter2 crate
(src/twitter2/src/auth/oauth10a.rs), together with the form decoder of
src/twitter2/src/client.rs.  Strings are embedded as Lean `String`s, byte
strings as `List Nat` (each element a byte value), and 32-bit machine
arithmetic as `Nat` arithmetic reduced modulo 2^32.  The external crates the
source calls into (libshire percent-encoding, hmac/sha1, base64) are embedded
as executable reference implementations of those standard algorithms, so that
the crate's own known-answer test vector can be checked by evaluation.
-/

set_option maxRecDepth 100000

namespace Twitter2

/-- UTF-8 encoding of a single character, as byte values.  This is the byte
view Rust exposes via `str::as_bytes` / `str::bytes`. -/
def utf8Bytes (c : Char) : List Nat :=
  let n := c.toNat
  if n < 128 then [n]
  else if n < 2048 then [192 + n / 64, 128 + n % 64]
  else if n < 65536 then [224 + n / 4096, 128 + n / 64 % 64, 128 + n % 64]
  else [240 + n / 262144, 128 + n / 4096 % 64, 128 + n / 64 % 64, 128 + n % 64]

/-- The UTF-8 bytes of a string, the unit on which percent-encoding and the
byte-wise `Ord` of Rust `str` operate. -/
def strBytes (s : String) : List Nat :=
  s.data.flatMap utf8Bytes

/-- The RFC 3986 unreserved set used by `libshire::encoding::url::percent_encode`:
ASCII alphanumerics and `-` `.` `_` `~`. -/
def isUnreservedByte (b : Nat) : Bool :=
  (65 ≤ b && b ≤ 90) || (97 ≤ b && b ≤ 122) || (48 ≤ b && b ≤ 57) ||
    b == 45 || b == 46 || b == 95 || b == 126

/-- Uppercase hexadecimal digit for a value below 16. -/
def hexUpper (n : Nat) : Char :=
  if n < 10 then Char.ofNat (48 + n) else Char.ofNat (55 + n)

/-- Percent-encoding of a single byte: an unreserved byte stands for itself,
any other byte becomes `%` followed by two uppercase hex digits. -/
def encodeByteChars (b : Nat) : List Char :=
  if isUnreservedByte b then [Char.ofNat b] else ['%', hexUpper (b / 16), hexUpper (b % 16)]

/-- Embedding of `libshire::encoding::url::percent_encode`, the percent
encoder used throughout `oauth10a.rs`: every UTF-8 byte of the input outside
the unreserved set is escaped. -/
def percent_encode (s : String) : String :=
  ⟨(strBytes s).flatMap encodeByteChars⟩

/-- Modulus for 32-bit machine arithmetic. -/
def M32 : Nat := 4294967296

/-- Left rotation of a 32-bit word (argument below `M32`) by `k` bits. -/
def rotl (k x : Nat) : Nat :=
  (x * 2 ^ k) % M32 + x / 2 ^ (32 - k)

/-- The SHA-1 round function for round `t`. -/
def sha1F (t b c d : Nat) : Nat :=
  if t < 20 then Nat.lor (Nat.land b c) (Nat.land (Nat.xor b 4294967295) d)
  else if t < 40 then Nat.xor (Nat.xor b c) d
  else if t < 60 then Nat.lor (Nat.lor (Nat.land b c) (Nat.land b d)) (Nat.land c d)
  else Nat.xor (Nat.xor b c) d

/-- The SHA-1 round constant for round `t`. -/
def sha1K (t : Nat) : Nat :=
  if t < 20 then 1518500249
  else if t < 40 then 1859775393
  else if t < 60 then 2400959708
  else 3395469782

/-- Big-endian assembly of 32-bit words from bytes. -/
def bytesToWords : List Nat → List Nat
  | b0 :: b1 :: b2 :: b3 :: rest => (((b0 * 256 + b1) * 256 + b2) * 256 + b3) :: bytesToWords rest
  | _ => []

/-- Message-schedule extension, keeping the words generated so far in reverse
order so that `w[i-3]`, `w[i-8]`, `w[i-14]`, `w[i-16]` are positional lookups. -/
def extendW : Nat → List Nat → List Nat
  | 0, rws => rws
  | k + 1, rws =>
    let w := rotl 1 (Nat.xor (Nat.xor (rws.getD 2 0) (rws.getD 7 0))
      (Nat.xor (rws.getD 13 0) (rws.getD 15 0)))
    extendW k (w :: rws)

/-- The 80-word SHA-1 message schedule of one 16-word block. -/
def schedule (ws : List Nat) : List Nat :=
  (extendW 64 ws.reverse).reverse

/-- The five-word SHA-1 chaining state. -/
structure Sha1State where
  h0 : Nat
  h1 : Nat
  h2 : Nat
  h3 : Nat
  h4 : Nat

/-- One SHA-1 round applied to the working tuple `(a, b, c, d, e)`. -/
def sha1Rounds (st : Nat × Nat × Nat × Nat × Nat) (tw : Nat × Nat) : Nat × Nat × Nat × Nat × Nat :=
  let (a, b, c, d, e) := st
  let (t, w) := tw
  let temp := (rotl 5 a + sha1F t b c d + e + sha1K t + w) % M32
  (temp, a, rotl 30 b, c, d)

/-- Compression of one 64-byte block into the chaining state. -/
def sha1Block (h : Sha1State) (block : List Nat) : Sha1State :=
  let ws := schedule (bytesToWords block)
  let fin := ((List.range 80).zip ws).foldl sha1Rounds (h.h0, h.h1, h.h2, h.h3, h.h4)
  ⟨(h.h0 + fin.1) % M32, (h.h1 + fin.2.1) % M32, (h.h2 + fin.2.2.1) % M32,
    (h.h3 + fin.2.2.2.1) % M32, (h.h4 + fin.2.2.2.2) % M32⟩

/-- The eight big-endian bytes of a 64-bit length field. -/
def beBytes8 (n : Nat) : List Nat :=
  [n / 72057594037927936 % 256, n / 281474976710656 % 256, n / 1099511627776 % 256,
    n / 4294967296 % 256, n / 16777216 % 256, n / 65536 % 256, n / 256 % 256, n % 256]

/-- SHA-1 padding: a `0x80` byte, zeros to 56 mod 64, then the bit length. -/
def sha1Pad (msg : List Nat) : List Nat :=
  let len := msg.length
  let k := (119 - len % 64) % 64
  msg ++ 128 :: (List.replicate k 0 ++ beBytes8 (len * 8))

/-- Fuel-driven splitting into 64-byte chunks; the fuel is consumed one unit
per chunk while at least 64 bytes are removed, so an initial fuel of the list
length always suffices. -/
def chunksAux : Nat → List Nat → List (List Nat)
  | 0, _ => []
  | _, [] => []
  | fuel + 1, bs => bs.take 64 :: chunksAux fuel (bs.drop 64)

/-- A padded message split into 64-byte blocks. -/
def chunks64 (bs : List Nat) : List (List Nat) :=
  chunksAux bs.length bs

/-- The four big-endian bytes of a 32-bit word. -/
def wordBytes (w : Nat) : List Nat :=
  [w / 16777216 % 256, w / 65536 % 256, w / 256 % 256, w % 256]

/-- Reference SHA-1 over a byte string, producing the 20-byte digest.  This
embeds the `sha1` crate the source hands to `Hmac`. -/
def sha1 (msg : List Nat) : List Nat :=
  let st := (chunks64 (sha1Pad msg)).foldl sha1Block
    ⟨1732584193, 4023233417, 2562383102, 271733878, 3285377520⟩
  wordBytes st.h0 ++ wordBytes st.h1 ++ wordBytes st.h2 ++ wordBytes st.h3 ++ wordBytes st.h4

/-- Reference HMAC-SHA1.  A key longer than the 64-byte block is first hashed,
then the key is zero-padded to the block size; no key length is rejected,
matching `Hmac::<Sha1>::new_from_slice` accepting every slice. -/
def hmacSha1 (key msg : List Nat) : List Nat :=
  let k0 := if 64 < key.length then sha1 key else key
  let kp := k0 ++ List.replicate (64 - k0.length) 0
  let inner := sha1 (kp.map (Nat.xor 54) ++ msg)
  sha1 (kp.map (Nat.xor 92) ++ inner)

/-- A digit of the standard base64 alphabet. -/
def b64Char (n : Nat) : Char :=
  if n < 26 then Char.ofNat (65 + n)
  else if n < 52 then Char.ofNat (97 + (n - 26))
  else if n < 62 then Char.ofNat (48 + (n - 52))
  else if n = 62 then '+'
  else '/'

/-- Standard base64 encoding with `=` padding, three bytes per four digits. -/
def base64Chars : List Nat → List Char
  | [] => []
  | [b1] =>
    let n := b1 * 65536
    [b64Char (n / 262144), b64Char (n / 4096 % 64), '=', '=']
  | [b1, b2] =>
    let n := b1 * 65536 + b2 * 256
    [b64Char (n / 262144), b64Char (n / 4096 % 64), b64Char (n / 64 % 64), '=']
  | b1 :: b2 :: b3 :: rest =>
    let n := b1 * 65536 + b2 * 256 + b3
    b64Char (n / 262144) :: b64Char (n / 4096 % 64) :: b64Char (n / 64 % 64) ::
      b64Char (n % 64) :: base64Chars rest

/-- Embedding of `base64::engine::general_purpose::STANDARD.encode`. -/
def base64Encode (bs : List Nat) : String :=
  ⟨base64Chars bs⟩

/-- The `OAuth10a` credential: the three derived strings stored by the struct
in `oauth10a.rs`. -/
structure OAuth10a where
  api_key_encoded : String
  access_token_encoded : String
  signing_key : String
deriving DecidableEq

/-- Embedding of `OAuth10a::new`: both key components are percent-encoded and
the signing key is the two encoded secrets joined by an ampersand. -/
def OAuth10a.new (api_key api_key_secret access_token access_token_secret : String) : OAuth10a :=
  { api_key_encoded := percent_encode api_key
    access_token_encoded := percent_encode access_token
    signing_key := percent_encode api_key_secret ++ "&" ++ percent_encode access_token_secret }

/-- Embedding of `OAuth10a::with_access_token`.  The source's
`find('&').expect(..)` is modelled by returning `none` exactly when the
`expect` would abort; the kept prefix is everything up to and including the
first ampersand, exactly as the byte-index slice `[..sep_index + 1]` keeps. -/
def OAuth10a.with_access_token (c : OAuth10a) (access_token access_token_secret : String) :
    Option OAuth10a :=
  match c.signing_key.data.findIdx? (· == '&') with
  | none => none
  | some i =>
    some { api_key_encoded := c.api_key_encoded
           access_token_encoded := percent_encode access_token
           signing_key := ⟨c.signing_key.data.take (i + 1)⟩ ++ percent_encode access_token_secret }

/-- The HTTP methods of `client.rs`. -/
inductive Method where
  | get
  | post
  | put
  | delete
deriving DecidableEq

/-- Embedding of `Method::as_str`, the `enumscribe` strings of `client.rs`. -/
def Method.as_str : Method → String
  | .get => "GET"
  | .post => "POST"
  | .put => "PUT"
  | .delete => "DELETE"

/-- A request as the signer observes it: the method, the base URL, and the
key/value pairs that `RequestData::for_each_param` yields in order.  For
`()` (no data) the list is empty; `QueryData` and `FormData` yield their
slices front to back. -/
structure Request where
  method : Method
  base_url : String
  params : List (String × String)

/-- Byte-wise lexicographic strict order, the order of Rust `str`'s `Ord`
instance viewed through `as_bytes`. -/
def bytesLt : List Nat → List Nat → Bool
  | _, [] => false
  | [], _ :: _ => true
  | a :: as, b :: bs => a < b || (a == b && bytesLt as bs)

/-- The strict order on parameter pairs used by the source's
`BTreeSet<(Cow<str>, Cow<str>)>`: lexicographic on the pair, each component
compared byte-wise. -/
def pairLt (p q : String × String) : Bool :=
  bytesLt (strBytes p.1) (strBytes q.1) ||
    (strBytes p.1 == strBytes q.1 && bytesLt (strBytes p.2) (strBytes q.2))

/-- Ordered insertion without duplication: the effect of `BTreeSet::insert`
on the in-order element sequence. -/
def insertSorted (p : String × String) : List (String × String) → List (String × String)
  | [] => [p]
  | q :: l =>
    if pairLt p q then p :: q :: l
    else if pairLt q p then q :: insertSorted p l
    else q :: l

/-- The OAuth protocol parameters inserted by `parameter_string`, in the
source's insertion order. -/
def protocolParams (c : OAuth10a) (nonce_encoded : String) (timestamp : Int) :
    List (String × String) :=
  [("oauth_consumer_key", c.api_key_encoded),
   ("oauth_nonce", nonce_encoded),
   ("oauth_signature_method", "HMAC-SHA1"),
   ("oauth_timestamp", toString timestamp),
   ("oauth_token", c.access_token_encoded),
   ("oauth_version", "1.0")]

/-- The request-specific parameters with key and value percent-encoded, as
`for_each_param`'s callback inserts them. -/
def encodedRequestParams (ps : List (String × String)) : List (String × String) :=
  ps.map (fun kv => (percent_encode kv.1, percent_encode kv.2))

/-- The in-order element sequence of the `BTreeSet` built by
`OAuth10a::parameter_string`. -/
def paramList (c : OAuth10a) (req : Request) (nonce_encoded : String) (timestamp : Int) :
    List (String × String) :=
  (protocolParams c nonce_encoded timestamp ++ encodedRequestParams req.params).foldl
    (fun acc p => insertSorted p acc) []

/-- The joining loop of `parameter_string`: `key=value` pairs, an `&` pushed
before every pair except into an empty buffer. -/
def joinPairs (ps : List (String × String)) : String :=
  ps.foldl (fun buf kv => (if buf.isEmpty then buf else buf ++ "&") ++ kv.1 ++ "=" ++ kv.2) ""

/-- Embedding of `OAuth10a::parameter_string`. -/
def parameter_string (c : OAuth10a) (req : Request) (nonce_encoded : String)
    (timestamp : Int) : String :=
  joinPairs (paramList c req nonce_encoded timestamp)

/-- Embedding of `OAuth10a::signature_base`. -/
def signature_base (c : OAuth10a) (req : Request) (nonce_encoded : String)
    (timestamp : Int) : String :=
  req.method.as_str ++ "&" ++ percent_encode req.base_url ++ "&" ++
    percent_encode (parameter_string c req nonce_encoded timestamp)

/-- Embedding of `OAuth10a::signature`: base64 of the HMAC-SHA1 of the
signature base string under the stored signing key. -/
def signature (c : OAuth10a) (req : Request) (nonce_encoded : String)
    (timestamp : Int) : String :=
  base64Encode (hmacSha1 (strBytes c.signing_key)
    (strBytes (signature_base c req nonce_encoded timestamp)))

/-- Embedding of `<OAuth10a as Auth>::auth_header`, with the two impure
inputs — the freshly generated nonce and the current timestamp — passed as
arguments.  The string is assembled exactly as the source's `format!` call. -/
def auth_header (c : OAuth10a) (req : Request) (nonce : String) (timestamp : Int) : String :=
  "OAuth oauth_consumer_key=\"" ++ c.api_key_encoded ++ "\", oauth_nonce=\"" ++ nonce ++
    "\", oauth_signature=\"" ++ percent_encode (signature c req nonce timestamp) ++
    "\", oauth_signature_method=\"HMAC-SHA1\", oauth_timestamp=\"" ++ toString timestamp ++
    "\", oauth_token=\"" ++ c.access_token_encoded ++ "\", oauth_version=\"1.0\""

/-- Embedding of `client.rs`'s `split_on_byte`: split at the first occurrence
of the delimiter, which is dropped; with no delimiter the suffix is the empty
slice `bytes[len..]`. -/
def split_on_byte (bytes : List Nat) (delim : Nat) : List Nat × List Nat :=
  match bytes.findIdx? (· == delim) with
  | some i => (bytes.take i, bytes.drop (i + 1))
  | none => (bytes, [])

/-- Value of an ASCII hexadecimal digit byte, `none` for any other byte. -/
def hexVal (b : Nat) : Option Nat :=
  if 48 ≤ b && b ≤ 57 then some (b - 48)
  else if 65 ≤ b && b ≤ 70 then some (b - 55)
  else if 97 ≤ b && b ≤ 102 then some (b - 87)
  else none

/-- Modelled from the spec: `libshire`'s `percent_decode_utf8(_, FormDecode)`
is not part of this source tree; per the spec's wire-format section the form
decoding percent-decodes `%XX` escapes and decodes `+` to a space.  The
result is kept as bytes. -/
def percent_decode_form : List Nat → List Nat
  | [] => []
  | 37 :: h1 :: h2 :: rest =>
    if (hexVal h1).isSome && (hexVal h2).isSome then
      ((hexVal h1).getD 0 * 16 + (hexVal h2).getD 0) :: percent_decode_form rest
    else 37 :: percent_decode_form (h1 :: h2 :: rest)
  | 43 :: rest => 32 :: percent_decode_form rest
  | b :: rest => b :: percent_decode_form rest

/-- Embedding of `<FormDecoder as Iterator>::next`: `none` on empty input,
otherwise the first `&`-delimited segment is split on `=` into the decoded
key and value, and the state advances past the segment. -/
def formNext (bs : List Nat) : Option ((List Nat × List Nat) × List Nat) :=
  if bs.isEmpty then none
  else
    let pr := split_on_byte bs 38
    let kv := split_on_byte pr.1 61
    some ((percent_decode_form kv.1, percent_decode_form kv.2), pr.2)

/-- The credentials reachable through the crate's public constructors: an
`OAuth10a::new` result, or any credential returned by `with_access_token`
from a reachable one. -/
inductive Reachable : OAuth10a → Prop
  | base (api_key api_key_secret access_token access_token_secret : String) :
      Reachable (OAuth10a.new api_key api_key_secret access_token access_token_secret)
  | rotate (c c' : OAuth10a) (access_token access_token_secret : String) :
      Reachable c → c.with_access_token access_token access_token_secret = some c' →
      Reachable c'

/-- Specification-side description of the signing-key prefix kept by
rotation: everything up to and including the first ampersand. -/
def upToFirstAmp (s : String) : String :=
  ⟨s.data.takeWhile (fun ch => !(ch == '&')) ++
    (s.data.dropWhile (fun ch => !(ch == '&'))).take 1⟩

/-- Specification-side join: the given fragments separated by `&`. -/
def joinAmp : List String → String
  | [] => ""
  | x :: rest => rest.foldl (fun acc y => acc ++ "&" ++ y) x

/-- Specification-side join: the given fragments separated by comma-space. -/
def joinCommaSpace : List String → String
  | [] => ""
  | x :: rest => rest.foldl (fun acc y => acc ++ ", " ++ y) x

/-- Specification-side shape of one authorization-header field: the name,
`=`, and the value in double quotes. -/
def headerField (name value : String) : String :=
  name ++ "=\"" ++ value ++ "\""

/-- The credential of the crate's own `test_signature` known-answer test,
built from the example credentials of the Twitter documentation. -/
def testCred : OAuth10a :=
  OAuth10a.new "xvz1evFS4wEEPTGEFPHBog" "kAcSOqF21Fu85e7zjz7ZN2U4ZRhfV3WpwPAoE3Z7kBw"
    "370773112-GmHxMAgYyLbNEtIKZeRNFsMKPR9EyMZeS9weJAEb"
    "LswwdoUaIvS8ltyTt5jkRh4J50vUPVVHtR2YPi5kE"

/-- The request of the crate's `test_signature` test: a POST with the two
form parameters, in the order the test supplies them. -/
def testReq : Request :=
  { method := .post
    base_url := "https://api.twitter.com/1.1/statuses/update.json"
    params := [("include_entities", "true"),
               ("status", "Hello Ladies + Gentlemen, a signed OAuth request!")] }

/-- Structural invariant of a stored signing key: a single ampersand with
ampersand-free parts on either side. -/
def SigKeyShape (c : OAuth10a) : Prop :=
  ∃ l1 l2 : List Char,
    c.signing_key.data = l1 ++ '&' :: l2 ∧ '&' ∉ l1 ∧ '&' ∉ l2

/-- C1: known-vector conformance.  With the documented example credentials,
nonce and timestamp, the computed signature is exactly the documented base64
value — the equality the crate's `test_signature` asserts. -/
theorem known_vector_signature :
    signature testCred testReq "kYjzVBB8Y0ZFabxSWbWovY3uYSQ2pTgmZeNu2VS4cg" 1318622958 =
      "hCtSmYh+iHYCEqBWrE7C7hYmtUk=" := by
  decide

/-- Extensionality for the string embedding: equal character data gives
equal strings. -/
theorem string_data_ext {s t : String} (h : s.data = t.data) : s = t := by
  cases s
  cases t
  exact congrArg String.mk h

/-- Evaluation of `Char.ofNat` for code points below the surrogate range. -/
theorem charOfNat_toNat (n : Nat) (h : n < 55296) : (Char.ofNat n).toNat = n := by
  unfold Char.ofNat
  split
  · rfl
  · rename_i hv
    exact absurd (Or.inl h) hv

/-- Characters are determined by their code points. -/
theorem char_toNat_inj {a b : Char} (h : a.toNat = b.toNat) : a = b :=
  Char.ext (UInt32.toNat.inj h)

/-- Every character's code point is below 0x110000. -/
theorem char_toNat_lt (c : Char) : c.toNat < 1114112 := by
  rcases c.valid with h | h
  · exact Nat.lt_trans h (by norm_num)
  · exact h.2

/-- Every byte of the UTF-8 encoding of a character is an actual byte. -/
theorem utf8Bytes_lt_256 (c : Char) (b : Nat) (hb : b ∈ utf8Bytes c) : b < 256 := by
  have hc := char_toNat_lt c
  by_cases h1 : c.toNat < 128
  · simp [utf8Bytes, h1] at hb
    omega
  · by_cases h2 : c.toNat < 2048
    · simp [utf8Bytes, h1, h2] at hb
      rcases hb with rfl | rfl <;> omega
    · by_cases h3 : c.toNat < 65536
      · simp [utf8Bytes, h1, h2, h3] at hb
        rcases hb with rfl | rfl | rfl <;> omega
      · simp [utf8Bytes, h1, h2, h3] at hb
        rcases hb with rfl | rfl | rfl | rfl <;> omega

/-- All bytes of a string's UTF-8 encoding are actual bytes. -/
theorem strBytes_lt_256 (s : String) (b : Nat) (hb : b ∈ strBytes s) : b < 256 := by
  rw [strBytes, List.mem_flatMap] at hb
  obtain ⟨c, _, hmem⟩ := hb
  exact utf8Bytes_lt_256 c b hmem

/-- Evaluation of `hexUpper` code points below 16. -/
theorem hexUpper_toNat (n : Nat) (h : n < 16) :
    (hexUpper n).toNat = if n < 10 then 48 + n else 55 + n := by
  unfold hexUpper
  split <;> rw [charOfNat_toNat] <;> omega

/-- No character emitted for a single byte by the percent encoder is an
ampersand: unreserved bytes exclude the ampersand and escapes use `%` and
hex digits only. -/
theorem encodeByteChars_no_amp (b : Nat) (hb : b < 256) (ch : Char)
    (hch : ch ∈ encodeByteChars b) : ch ≠ '&' := by
  intro rfl_amp
  subst rfl_amp
  unfold encodeByteChars at hch
  split at hch
  · rename_i hu
    simp only [List.mem_singleton] at hch
    have h38 : (Char.ofNat b).toNat = b := charOfNat_toNat b (by omega)
    rw [← hch] at h38
    have : b = 38 := by simpa using h38.symm
    subst this
    simp [isUnreservedByte] at hu
  · simp only [List.mem_cons, List.not_mem_nil, or_false] at hch
    rcases hch with h | h | h
    · have : ('&').toNat = ('%').toNat := by rw [h]
      simp at this
    · have h16 : b / 16 < 16 := by omega
      have := hexUpper_toNat (b / 16) h16
      rw [← h] at this
      revert this
      split <;> intro this <;> simp at this <;> omega
    · have h16 : b % 16 < 16 := by omega
      have := hexUpper_toNat (b % 16) h16
      rw [← h] at this
      revert this
      split <;> intro this <;> simp at this <;> omega

/-- The percent encoder never emits an ampersand. -/
theorem percent_encode_no_amp (s : String) : '&' ∉ (percent_encode s).data := by
  intro h
  have h' : '&' ∈ (strBytes s).flatMap encodeByteChars := h
  rw [List.mem_flatMap] at h'
  obtain ⟨b, hb, hmem⟩ := h'
  exact encodeByteChars_no_amp b (strBytes_lt_256 s b hb) '&' hmem rfl

/-- Character data of the signing key built by `OAuth10a::new`. -/
theorem new_signing_key_data (api_key_secret access_token_secret : String) :
    (percent_encode api_key_secret ++ "&" ++ percent_encode access_token_secret).data =
      (percent_encode api_key_secret).data ++ '&' :: (percent_encode access_token_secret).data := by
  simp [String.data_append]

/-- A credential built by `OAuth10a::new` has a well-shaped signing key. -/
theorem sigKeyShape_new (a b t s : String) : SigKeyShape (OAuth10a.new a b t s) := by
  refine ⟨(percent_encode b).data, (percent_encode s).data, ?_, ?_, ?_⟩
  · exact new_signing_key_data b s
  · exact percent_encode_no_amp b
  · exact percent_encode_no_amp s

/-- Position of the separating ampersand found by `str::find`. -/
theorem findIdx_amp (l1 l2 : List Char) (h : '&' ∉ l1) :
    ∀ i : Nat, List.findIdx? (fun ch => ch == '&') (l1 ++ '&' :: l2) i = some (i + l1.length) := by
  induction l1 with
  | nil =>
    intro i
    simp [List.findIdx?_cons]
  | cons a l1 ih =>
    intro i
    have ha : a ≠ '&' := fun hx => h (hx ▸ List.mem_cons_self a l1)
    have hrest : '&' ∉ l1 := fun hx => h (List.mem_cons_of_mem a hx)
    rw [List.cons_append, List.findIdx?_cons]
    simp only [beq_iff_eq, ha, if_false]
    rw [ih hrest (i + 1)]
    congr 1
    simp
    omega

/-- On a well-shaped credential, `with_access_token` takes the branch that
keeps the encoded consumer secret and the ampersand, and the resulting
credential is well-shaped again. -/
theorem with_access_token_shape (c : OAuth10a) (l1 l2 : List Char)
    (hdata : c.signing_key.data = l1 ++ '&' :: l2) (h1 : '&' ∉ l1) (t s : String) :
    c.with_access_token t s =
      some { api_key_encoded := c.api_key_encoded
             access_token_encoded := percent_encode t
             signing_key := (⟨l1 ++ ['&']⟩ : String) ++ percent_encode s } := by
  unfold OAuth10a.with_access_token
  rw [hdata, findIdx_amp l1 l2 h1 0]
  simp only [Nat.zero_add, Option.some.injEq]
  congr 2
  congr 1
  have hlen : l1.length + 1 = l1.length + (0 + 1) := by omega
  rw [hlen, List.take_append]
  simp

/-- Every reachable credential has a well-shaped signing key. -/
theorem reachable_sigKeyShape (c : OAuth10a) (h : Reachable c) : SigKeyShape c := by
  induction h with
  | base a b t s => exact sigKeyShape_new a b t s
  | rotate c c' t s _ heq ih =>
    obtain ⟨l1, l2, hdata, h1, h2⟩ := ih
    rw [with_access_token_shape c l1 l2 hdata h1 t s] at heq
    obtain rfl : _ = c' := Option.some.inj heq
    refine ⟨l1, (percent_encode s).data, ?_, h1, percent_encode_no_amp s⟩
    simp [String.data_append]

/-- C2: signing-key separator invariant.  Every credential reachable by
`OAuth10a::new` or by chains of `with_access_token` stores a signing key with
exactly one ampersand, because percent-encoding escapes every ampersand in
the secrets themselves. -/
theorem signing_key_single_amp (c : OAuth10a) (h : Reachable c) :
    List.count '&' c.signing_key.data = 1 := by
  obtain ⟨l1, l2, hdata, h1, h2⟩ := reachable_sigKeyShape c h
  rw [hdata, List.count_append, List.count_cons]
  rw [List.count_eq_zero.mpr h1, List.count_eq_zero.mpr h2]
  simp

/-- Witness for C2 at concrete credentials whose secrets themselves contain
ampersands. -/
theorem signing_key_single_amp_witness :
    List.count '&'
      (OAuth10a.new "app-key" "app&secret" "user-token" "user&&secret").signing_key.data = 1 :=
  signing_key_single_amp _
    (Reachable.base "app-key" "app&secret" "user-token" "user&&secret")

/-- On character data with a first ampersand after `l1`, the kept prefix of
the rotation is `l1` followed by that ampersand. -/
theorem upToFirstAmp_eq (l1 l2 : List Char) (h1 : '&' ∉ l1) :
    (List.takeWhile (fun ch => !(ch == '&')) (l1 ++ '&' :: l2) ++
      (List.dropWhile (fun ch => !(ch == '&')) (l1 ++ '&' :: l2)).take 1) = l1 ++ ['&'] := by
  induction l1 with
  | nil => simp
  | cons a l1 ih =>
    have ha : a ≠ '&' := fun hx => h1 (hx ▸ List.mem_cons_self a l1)
    have hrest : '&' ∉ l1 := fun hx => h1 (List.mem_cons_of_mem a hx)
    have ha' : (a == '&') = false := by simp [ha]
    simp only [List.cons_append, List.takeWhile_cons, List.dropWhile_cons, ha']
    simp only [Bool.not_false, if_true, List.cons_append]
    congr 1
    exact ih hrest

/-- C3: rotation correctness.  For a credential built by `OAuth10a::new`,
`with_access_token` succeeds and returns a credential whose signing key is
the old key's prefix up to and including the first ampersand followed by the
percent-encoded new secret, whose consumer-key field is unchanged, and whose
token field is the percent-encoded new token. -/
theorem rotation_correct (a b t0 s0 nt ns : String) :
    (OAuth10a.new a b t0 s0).with_access_token nt ns =
      some { api_key_encoded := (OAuth10a.new a b t0 s0).api_key_encoded
             access_token_encoded := percent_encode nt
             signing_key :=
               upToFirstAmp (OAuth10a.new a b t0 s0).signing_key ++ percent_encode ns } := by
  have hdata := new_signing_key_data b s0
  rw [with_access_token_shape (OAuth10a.new a b t0 s0) (percent_encode b).data
    (percent_encode s0).data hdata (percent_encode_no_amp b) nt ns]
  congr 2
  congr 1
  apply string_data_ext
  show (percent_encode b).data ++ ['&'] =
    List.takeWhile (fun ch => !(ch == '&')) (OAuth10a.new a b t0 s0).signing_key.data ++
      (List.dropWhile (fun ch => !(ch == '&')) (OAuth10a.new a b t0 s0).signing_key.data).take 1
  have hsk : (OAuth10a.new a b t0 s0).signing_key.data =
      (percent_encode b).data ++ '&' :: (percent_encode s0).data := hdata
  rw [hsk]
  exact (upToFirstAmp_eq (percent_encode b).data (percent_encode s0).data
    (percent_encode_no_amp b)).symm

/-- The length of an HMAC-SHA1 tag is always the SHA-1 digest length, twenty
bytes, for a key of any length. -/
theorem hmacSha1_length (key msg : List Nat) : (hmacSha1 key msg).length = 20 := by
  simp [hmacSha1, sha1, wordBytes]

/-- C4: unreachable failure branches.  For every reachable credential the
ampersand lookup inside `with_access_token` succeeds for all arguments, and
HMAC-SHA1 key setup is total: every key of any length yields a well-formed
twenty-byte tag. -/
theorem failure_branches_unreachable (c : OAuth10a) (h : Reachable c) :
    (∀ t s, (c.with_access_token t s).isSome = true) ∧
      (∀ key msg : List Nat, (hmacSha1 key msg).length = 20) := by
  constructor
  · intro t s
    obtain ⟨l1, l2, hdata, h1, _⟩ := reachable_sigKeyShape c h
    rw [with_access_token_shape c l1 l2 hdata h1 t s]
    rfl
  · intro key msg
    exact hmacSha1_length key msg

/-- Witness for C4 at a concrete reachable credential and a concrete
over-block-size HMAC key. -/
theorem failure_branches_unreachable_witness :
    (((OAuth10a.new "k" "s&1" "t" "s&2").with_access_token "nt" "n&s").isSome = true) ∧
      (hmacSha1 (List.replicate 100 7) [1, 2, 3]).length = 20 :=
  ⟨(failure_branches_unreachable _ (Reachable.base "k" "s&1" "t" "s&2")).1 "nt" "n&s",
    (failure_branches_unreachable _ (Reachable.base "k" "s&1" "t" "s&2")).2
      (List.replicate 100 7) [1, 2, 3]⟩

/-- The byte-wise order is irreflexive. -/
theorem bytesLt_irrefl : ∀ a : List Nat, bytesLt a a = false := by
  intro a
  induction a with
  | nil => rfl
  | cons x xs ih => simp [bytesLt, ih]

/-- The byte-wise order is asymmetric. -/
theorem bytesLt_asymm : ∀ a b : List Nat, bytesLt a b = true → bytesLt b a = false := by
  intro a
  induction a with
  | nil =>
    intro b h
    cases b <;> rfl
  | cons x xs ih =>
    intro b h
    cases b with
    | nil => simp [bytesLt] at h
    | cons y ys =>
      simp only [bytesLt, Bool.or_eq_true, Bool.and_eq_true, beq_iff_eq,
        decide_eq_true_eq] at h
      simp only [bytesLt, Bool.or_eq_false_iff, Bool.and_eq_false_iff]
      rcases h with h | ⟨rfl, hlt⟩
      · constructor
        · simp
          omega
        · left
          simp
          omega
      · refine ⟨by simp, Or.inr (ih ys hlt)⟩

/-- Two byte strings neither of which is below the other are equal. -/
theorem bytesLt_conn : ∀ a b : List Nat,
    bytesLt a b = false → bytesLt b a = false → a = b := by
  intro a
  induction a with
  | nil =>
    intro b h1 _
    cases b with
    | nil => rfl
    | cons y ys => simp [bytesLt] at h1
  | cons x xs ih =>
    intro b h1 h2
    cases b with
    | nil => simp [bytesLt] at h2
    | cons y ys =>
      simp only [bytesLt, Bool.or_eq_false_iff, Bool.and_eq_false_iff,
        decide_eq_false_iff_not, beq_eq_false_iff_ne, ne_eq] at h1 h2
      obtain ⟨hxy, h1r⟩ := h1
      obtain ⟨hyx, h2r⟩ := h2
      have hx : x = y := by omega
      subst hx
      rcases h1r with h | h1r
      · simp at h
      · rcases h2r with h | h2r
        · simp at h
        · rw [ih ys h1r h2r]

/-- The byte-wise order is transitive. -/
theorem bytesLt_trans : ∀ a b c : List Nat,
    bytesLt a b = true → bytesLt b c = true → bytesLt a c = true := by
  intro a
  induction a with
  | nil =>
    intro b c h1 h2
    cases b with
    | nil => simp [bytesLt] at h1
    | cons y ys =>
      cases c with
      | nil => simp [bytesLt] at h2
      | cons z zs => rfl
  | cons x xs ih =>
    intro b c h1 h2
    cases b with
    | nil => simp [bytesLt] at h1
    | cons y ys =>
      cases c with
      | nil => simp [bytesLt] at h2
      | cons z zs =>
        simp only [bytesLt, Bool.or_eq_true, Bool.and_eq_true, beq_iff_eq,
          decide_eq_true_eq] at h1 h2 ⊢
        rcases h1 with h1 | ⟨rfl, h1⟩
        · rcases h2 with h2 | ⟨rfl, h2⟩
          · left
            omega
          · left
            exact h1
        · rcases h2 with h2 | ⟨rfl, h2⟩
          · left
            exact h2
          · exact Or.inr ⟨rfl, ih ys zs h1 h2⟩

/-- The UTF-8 encoding of a character is never empty. -/
theorem utf8Bytes_ne_nil (c : Char) : utf8Bytes c ≠ [] := by
  by_cases h1 : c.toNat < 128
  · simp [utf8Bytes, h1]
  · by_cases h2 : c.toNat < 2048
    · simp [utf8Bytes, h1, h2]
    · by_cases h3 : c.toNat < 65536
      · simp [utf8Bytes, h1, h2, h3]
      · simp [utf8Bytes, h1, h2, h3]

/-- Case analysis of the UTF-8 encoder: the four length classes with their
code-point ranges and emitted byte lists. -/
theorem utf8Bytes_eq (c : Char) :
    (0 ≤ c.toNat ∧ c.toNat < 128 ∧ utf8Bytes c = [c.toNat]) ∨
    (128 ≤ c.toNat ∧ c.toNat < 2048 ∧
      utf8Bytes c = [192 + c.toNat / 64, 128 + c.toNat % 64]) ∨
    (2048 ≤ c.toNat ∧ c.toNat < 65536 ∧
      utf8Bytes c = [224 + c.toNat / 4096, 128 + c.toNat / 64 % 64, 128 + c.toNat % 64]) ∨
    (65536 ≤ c.toNat ∧ c.toNat < 1114112 ∧
      utf8Bytes c = [240 + c.toNat / 262144, 128 + c.toNat / 4096 % 64,
        128 + c.toNat / 64 % 64, 128 + c.toNat % 64]) := by
  have hc := char_toNat_lt c
  by_cases h1 : c.toNat < 128
  · exact Or.inl ⟨Nat.zero_le _, h1, by simp [utf8Bytes, h1]⟩
  · by_cases h2 : c.toNat < 2048
    · exact Or.inr (Or.inl ⟨by omega, h2, by simp [utf8Bytes, h1, h2]⟩)
    · by_cases h3 : c.toNat < 65536
      · exact Or.inr (Or.inr (Or.inl ⟨by omega, h3, by simp [utf8Bytes, h1, h2, h3]⟩))
      · exact Or.inr (Or.inr (Or.inr ⟨by omega, hc, by simp [utf8Bytes, h1, h2, h3]⟩))

/-- UTF-8 is a prefix code: equal byte streams beginning with the encodings
of two characters force the characters and the remainders to coincide. -/
theorem utf8_append_inj (c d : Char) (r1 r2 : List Nat)
    (h : utf8Bytes c ++ r1 = utf8Bytes d ++ r2) : c = d ∧ r1 = r2 := by
  rcases utf8Bytes_eq c with ⟨hc1, hc2, hce⟩ | ⟨hc1, hc2, hce⟩ | ⟨hc1, hc2, hce⟩ | ⟨hc1, hc2, hce⟩ <;>
    rcases utf8Bytes_eq d with ⟨hd1, hd2, hde⟩ | ⟨hd1, hd2, hde⟩ | ⟨hd1, hd2, hde⟩ | ⟨hd1, hd2, hde⟩ <;>
    rw [hce, hde] at h <;>
    simp only [List.cons_append, List.nil_append, List.cons.injEq] at h <;>
    first
      | (exfalso; omega)
      | (refine ⟨char_toNat_inj (by omega), ?_⟩; tauto)

/-- Concatenated UTF-8 encodings determine the character sequence. -/
theorem utf8_flat_inj : ∀ l1 l2 : List Char,
    l1.flatMap utf8Bytes = l2.flatMap utf8Bytes → l1 = l2 := by
  intro l1
  induction l1 with
  | nil =>
    intro l2 h
    cases l2 with
    | nil => rfl
    | cons d ds =>
      exfalso
      simp only [List.flatMap_nil, List.flatMap_cons] at h
      have := List.append_eq_nil.mp h.symm
      exact utf8Bytes_ne_nil d this.1
  | cons c cs ih =>
    intro l2 h
    cases l2 with
    | nil =>
      exfalso
      simp only [List.flatMap_nil, List.flatMap_cons] at h
      have := List.append_eq_nil.mp h
      exact utf8Bytes_ne_nil c this.1
    | cons d ds =>
      simp only [List.flatMap_cons] at h
      obtain ⟨rfl, htail⟩ := utf8_append_inj c d _ _ h
      rw [ih ds htail]

/-- Injectivity of the byte view of strings. -/
theorem strBytes_inj {s t : String} (h : strBytes s = strBytes t) : s = t :=
  string_data_ext (utf8_flat_inj s.data t.data h)

/-- The pair order is asymmetric. -/
theorem pairLt_asymm (p q : String × String) (h : pairLt p q = true) : pairLt q p = false := by
  rw [Bool.eq_false_iff]
  intro h'
  simp only [pairLt, Bool.or_eq_true, Bool.and_eq_true, beq_iff_eq] at h h'
  rcases h with h | ⟨he, hv⟩
  · rcases h' with h' | ⟨he', _⟩
    · have hf := bytesLt_asymm _ _ h
      rw [h'] at hf
      cases hf
    · rw [he'] at h
      have hf := bytesLt_irrefl (strBytes p.1)
      rw [h] at hf
      cases hf
  · rcases h' with h' | ⟨_, hv'⟩
    · rw [he] at h'
      have hf := bytesLt_irrefl (strBytes q.1)
      rw [h'] at hf
      cases hf
    · have hf := bytesLt_asymm _ _ hv
      rw [hv'] at hf
      cases hf

/-- Two pairs neither of which is below the other are equal. -/
theorem pairLt_conn (p q : String × String) (h1 : pairLt p q = false)
    (h2 : pairLt q p = false) : p = q := by
  simp only [pairLt, Bool.or_eq_false_iff, Bool.and_eq_false_iff,
    beq_eq_false_iff_ne, ne_eq] at h1 h2
  obtain ⟨hk1, h1r⟩ := h1
  obtain ⟨hk2, h2r⟩ := h2
  have hk : strBytes p.1 = strBytes q.1 := bytesLt_conn _ _ hk1 hk2
  have hv : strBytes p.2 = strBytes q.2 := by
    rcases h1r with h | h1v
    · exact absurd hk h
    · rcases h2r with h | h2v
      · exact absurd hk.symm h
      · exact bytesLt_conn _ _ h1v h2v
  have e1 : p.1 = q.1 := strBytes_inj hk
  have e2 : p.2 = q.2 := strBytes_inj hv
  exact Prod.ext e1 e2

/-- Trichotomy for the pair order. -/
theorem pairLt_cases (p q : String × String) :
    pairLt p q = true ∨ p = q ∨ pairLt q p = true := by
  by_cases h1 : pairLt p q = true
  · exact Or.inl h1
  · by_cases h2 : pairLt q p = true
    · exact Or.inr (Or.inr h2)
    · exact Or.inr (Or.inl (pairLt_conn p q (Bool.eq_false_iff.mpr h1) (Bool.eq_false_iff.mpr h2)))

/-- The pair order is transitive. -/
theorem pairLt_trans (p q r : String × String) (h1 : pairLt p q = true)
    (h2 : pairLt q r = true) : pairLt p r = true := by
  simp only [pairLt, Bool.or_eq_true, Bool.and_eq_true, beq_iff_eq] at h1 h2 ⊢
  rcases h1 with h1 | ⟨he1, hv1⟩
  · rcases h2 with h2 | ⟨he2, _⟩
    · exact Or.inl (bytesLt_trans _ _ _ h1 h2)
    · rw [he2] at h1
      exact Or.inl h1
  · rcases h2 with h2 | ⟨he2, hv2⟩
    · rw [he1]
      exact Or.inl h2
    · exact Or.inr ⟨he1.trans he2, bytesLt_trans _ _ _ hv1 hv2⟩

/-- The pair order is irreflexive. -/
theorem pairLt_irrefl (p : String × String) : pairLt p p = false := by
  simp [pairLt, bytesLt_irrefl]

/-- Membership after a sorted insertion: the new element or an old one. -/
theorem mem_insertSorted (p x : String × String) :
    ∀ l, x ∈ insertSorted p l ↔ x = p ∨ x ∈ l := by
  intro l
  induction l with
  | nil => simp [insertSorted]
  | cons q l ih =>
    cases h1 : pairLt p q with
    | true =>
      simp [insertSorted, h1]
    | false =>
      cases h2 : pairLt q p with
      | true =>
        simp [insertSorted, h1, h2, ih]
        tauto
      | false =>
        have hpq : p = q := pairLt_conn p q h1 h2
        subst hpq
        simp [insertSorted, h1]

/-- Sorted insertion preserves strict sortedness. -/
theorem chain'_insertSorted (p : String × String) :
    ∀ l, List.Chain' (fun a b => pairLt a b = true) l →
      List.Chain' (fun a b => pairLt a b = true) (insertSorted p l) := by
  intro l
  induction l with
  | nil =>
    intro _
    simp [insertSorted]
  | cons q l ih =>
    intro hch
    rw [List.chain'_cons'] at hch
    cases h1 : pairLt p q with
    | true =>
      have hred : insertSorted p (q :: l) = p :: q :: l := by
        simp [insertSorted, h1]
      rw [hred, List.chain'_cons']
      refine ⟨?_, ?_⟩
      · intro y hy
        simp only [List.head?_cons, Option.mem_def, Option.some.injEq] at hy
        subst hy
        exact h1
      · rw [List.chain'_cons']
        exact hch
    | false =>
      cases h2 : pairLt q p with
      | true =>
        have hred : insertSorted p (q :: l) = q :: insertSorted p l := by
          simp [insertSorted, h1, h2]
        rw [hred, List.chain'_cons']
        refine ⟨?_, ih hch.2⟩
        intro y hy
        cases l with
        | nil =>
          simp only [insertSorted, List.head?_cons, Option.mem_def, Option.some.injEq] at hy
          subst hy
          exact h2
        | cons r l' =>
          cases h3 : pairLt p r with
          | true =>
            have hred3 : insertSorted p (r :: l') = p :: r :: l' := by
              simp [insertSorted, h3]
            rw [hred3] at hy
            simp only [List.head?_cons, Option.mem_def, Option.some.injEq] at hy
            subst hy
            exact h2
          | false =>
            cases h4 : pairLt r p with
            | true =>
              have hred3 : insertSorted p (r :: l') = r :: insertSorted p l' := by
                simp [insertSorted, h3, h4]
              rw [hred3] at hy
              simp only [List.head?_cons, Option.mem_def, Option.some.injEq] at hy
              subst hy
              exact hch.1 r (by simp)
            | false =>
              have hred3 : insertSorted p (r :: l') = r :: l' := by
                simp [insertSorted, h3, h4]
              rw [hred3] at hy
              simp only [List.head?_cons, Option.mem_def, Option.some.injEq] at hy
              subst hy
              exact hch.1 r (by simp)
      | false =>
        have hpq : p = q := pairLt_conn p q h1 h2
        subst hpq
        have hred : insertSorted p (p :: l) = p :: l := by
          simp [insertSorted, h1]
        rw [hred, List.chain'_cons']
        exact hch

/-- Sorted insertions commute, the key fact making the built set independent
of insertion order. -/
theorem insertSorted_comm (p q : String × String) :
    ∀ l, insertSorted p (insertSorted q l) = insertSorted q (insertSorted p l) := by
  by_cases hpq0 : p = q
  · subst hpq0
    intro l
    rfl
  intro l
  induction l with
  | nil =>
    rcases pairLt_cases p q with h | h | h
    · have h' := pairLt_asymm _ _ h
      simp [insertSorted, h, h']
    · exact absurd h hpq0
    · have h' := pairLt_asymm _ _ h
      simp [insertSorted, h, h']
  | cons r l ih =>
    rcases pairLt_cases q r with hqr | hqr | hrq
    · -- q before r
      have hrq := pairLt_asymm _ _ hqr
      rcases pairLt_cases p q with hpq | hpq | hqp
      · -- p < q < r
        have hqp := pairLt_asymm _ _ hpq
        have hpr := pairLt_trans _ _ _ hpq hqr
        simp [insertSorted, hqr, hrq, hpq, hqp, hpr]
      · exact absurd hpq hpq0
      · -- q < p
        have hpq := pairLt_asymm _ _ hqp
        rcases pairLt_cases p r with hpr | hpr | hrp
        · have hrp := pairLt_asymm _ _ hpr
          simp [insertSorted, hqr, hrq, hpq, hqp, hpr, hrp]
        · subst hpr
          simp [insertSorted, hqr, hrq, hpq, hqp, pairLt_irrefl]
        · have hpr := pairLt_asymm _ _ hrp
          simp [insertSorted, hqr, hrq, hpq, hqp, hpr, hrp]
    · -- q = r
      subst hqr
      rcases pairLt_cases p q with hpq | hpq | hqp
      · have hqp := pairLt_asymm _ _ hpq
        simp [insertSorted, hpq, hqp, pairLt_irrefl]
      · exact absurd hpq hpq0
      · have hpq := pairLt_asymm _ _ hqp
        simp [insertSorted, hpq, hqp, pairLt_irrefl]
    · -- r before q
      have hqr := pairLt_asymm _ _ hrq
      rcases pairLt_cases p r with hpr | hpr | hrp
      · -- p < r < q
        have hrp := pairLt_asymm _ _ hpr
        have hpq := pairLt_trans _ _ _ hpr hrq
        have hqp := pairLt_asymm _ _ hpq
        simp [insertSorted, hqr, hrq, hpr, hrp, hpq, hqp]
      · -- p = r
        subst hpr
        simp [insertSorted, hqr, hrq, pairLt_irrefl]
      · -- r < p
        have hpr := pairLt_asymm _ _ hrp
        simp [insertSorted, hqr, hrq, hpr, hrp, ih]

/-- Membership in the accumulated set after inserting a whole list. -/
theorem foldl_insertSorted_mem (x : String × String) :
    ∀ (input acc : List (String × String)),
      (x ∈ input.foldl (fun a p => insertSorted p a) acc ↔ x ∈ acc ∨ x ∈ input) := by
  intro input
  induction input with
  | nil =>
    intro acc
    simp
  | cons p ps ih =>
    intro acc
    simp only [List.foldl_cons]
    rw [ih (insertSorted p acc), mem_insertSorted]
    simp only [List.mem_cons]
    tauto

/-- The accumulated set stays strictly sorted while inserting a whole list. -/
theorem foldl_insertSorted_chain :
    ∀ (input acc : List (String × String)),
      List.Chain' (fun a b => pairLt a b = true) acc →
      List.Chain' (fun a b => pairLt a b = true)
        (input.foldl (fun a p => insertSorted p a) acc) := by
  intro input
  induction input with
  | nil =>
    intro acc h
    simpa using h
  | cons p ps ih =>
    intro acc h
    simp only [List.foldl_cons]
    exact ih _ (chain'_insertSorted p acc h)

/-- A string with a positive character count is not empty. -/
theorem isEmpty_false_of_length_pos {s : String} (h : 0 < s.length) : s.isEmpty = false := by
  rw [Bool.eq_false_iff]
  intro he
  have hs := (String.isEmpty_iff s).mp he
  subst hs
  have h0 : ("" : String).length = 0 := rfl
  omega

/-- The joining fold of `parameter_string`, started from a non-empty buffer,
is the plain ampersand-separated join. -/
theorem joinPairs_foldl (l : List (String × String)) :
    ∀ buf : String, buf.isEmpty = false →
      l.foldl (fun b kv => (if b.isEmpty then b else b ++ "&") ++ kv.1 ++ "=" ++ kv.2) buf =
        (l.map fun kv => kv.1 ++ "=" ++ kv.2).foldl (fun acc y => acc ++ "&" ++ y) buf := by
  induction l with
  | nil =>
    intro buf _
    simp
  | cons kv l ih =>
    intro buf h
    simp only [List.foldl_cons, List.map_cons, h, Bool.false_eq_true, if_false]
    have hacc : ((buf ++ "&") ++ kv.1 ++ "=" ++ kv.2) = (buf ++ "&" ++ (kv.1 ++ "=" ++ kv.2)) := by
      simp [String.append_assoc]
    rw [hacc]
    apply ih
    apply isEmpty_false_of_length_pos
    simp only [String.length_append]
    have h1 : ("&" : String).length = 1 := rfl
    omega

/-- The joining loop of `parameter_string` produces the ampersand-separated
join of the `key=value` fragments. -/
theorem joinPairs_eq_joinAmp (l : List (String × String)) :
    joinPairs l = joinAmp (l.map fun kv => kv.1 ++ "=" ++ kv.2) := by
  cases l with
  | nil => rfl
  | cons kv rest =>
    show List.foldl _ _ (kv :: rest) = joinAmp _
    simp only [List.map_cons, joinAmp, List.foldl_cons]
    have hstep : (if ("" : String).isEmpty then ("" : String) else "" ++ "&") ++ kv.1 ++ "=" ++ kv.2 =
        kv.1 ++ "=" ++ kv.2 := by
      have he : ("" : String).isEmpty = true := rfl
      simp [he]
    rw [hstep]
    apply joinPairs_foldl
    apply isEmpty_false_of_length_pos
    simp only [String.length_append]
    have h1 : ("=" : String).length = 1 := rfl
    omega

/-- C5: parameter canonicalization.  The list joined by `parameter_string`
is strictly sorted in the byte-wise pair order (so duplicates have collapsed
while same-key different-value pairs being distinct both remain), its members
are exactly the protocol parameters together with the percent-encoded
request parameters, and the output is the `&`-join of the `key=value`
fragments with nothing else. -/
theorem parameter_string_canonical (c : OAuth10a) (req : Request) (n : String) (ts : Int) :
    List.Chain' (fun p q => pairLt p q = true) (paramList c req n ts) ∧
      (∀ p, p ∈ paramList c req n ts ↔
        p ∈ protocolParams c n ts ++ encodedRequestParams req.params) ∧
      parameter_string c req n ts =
        joinAmp ((paramList c req n ts).map (fun kv => kv.1 ++ "=" ++ kv.2)) := by
  refine ⟨?_, ?_, ?_⟩
  · exact foldl_insertSorted_chain _ [] (by simp)
  · intro p
    rw [paramList, foldl_insertSorted_mem]
    simp
  · rw [parameter_string, joinPairs_eq_joinAmp]

/-- C6: permutation invariance.  Request parameter lists that are
permutations of each other produce the same canonical parameter string and
hence the same signature. -/
theorem signature_perm_invariant (c : OAuth10a) (m : Method) (u n : String) (ts : Int)
    (ps1 ps2 : List (String × String)) (hperm : ps1.Perm ps2) :
    parameter_string c ⟨m, u, ps1⟩ n ts = parameter_string c ⟨m, u, ps2⟩ n ts ∧
      signature c ⟨m, u, ps1⟩ n ts = signature c ⟨m, u, ps2⟩ n ts := by
  have hall : (protocolParams c n ts ++ encodedRequestParams ps1).Perm
      (protocolParams c n ts ++ encodedRequestParams ps2) :=
    List.Perm.append_left _ (hperm.map _)
  have hfold : paramList c ⟨m, u, ps1⟩ n ts = paramList c ⟨m, u, ps2⟩ n ts :=
    List.Perm.foldl_eq' hall (fun x _ y _ z => insertSorted_comm y x z) []
  constructor
  · simp only [parameter_string, hfold]
  · simp only [signature, signature_base, parameter_string, hfold]

/-- Witness for C6 on two concrete two-element parameter lists in swapped
order. -/
theorem signature_perm_invariant_witness :
    parameter_string testCred ⟨Method.get, "https://example.com/a", [("b", "2"), ("a", "1")]⟩
        "nonce" 7 =
      parameter_string testCred ⟨Method.get, "https://example.com/a", [("a", "1"), ("b", "2")]⟩
        "nonce" 7 ∧
      signature testCred ⟨Method.get, "https://example.com/a", [("b", "2"), ("a", "1")]⟩
          "nonce" 7 =
        signature testCred ⟨Method.get, "https://example.com/a", [("a", "1"), ("b", "2")]⟩
          "nonce" 7 :=
  signature_perm_invariant testCred Method.get "https://example.com/a" "nonce" 7
    [("b", "2"), ("a", "1")] [("a", "1"), ("b", "2")] (by decide)

/-- Length of the base64 digit string: four digits per started three-byte
group. -/
theorem base64Chars_length_aux : ∀ (n : Nat) (bs : List Nat), bs.length ≤ n →
    (base64Chars bs).length = 4 * ((bs.length + 2) / 3) := by
  intro n
  induction n with
  | zero =>
    intro bs h
    have hb : bs = [] := List.eq_nil_of_length_eq_zero (by omega)
    subst hb
    simp [base64Chars]
  | succ n ih =>
    intro bs h
    rcases bs with _ | ⟨b1, _ | ⟨b2, _ | ⟨b3, rest⟩⟩⟩
    · simp [base64Chars]
    · simp [base64Chars]
    · simp [base64Chars]
    · have hr : rest.length ≤ n := by
        simp only [List.length_cons] at h
        omega
      have hrec := ih rest hr
      simp only [base64Chars, List.length_cons, hrec]
      omega

/-- Every computed signature is a 28-character base64 string: the join of a
20-byte HMAC-SHA1 tag. -/
theorem signature_data_length (c : OAuth10a) (req : Request) (n : String) (ts : Int) :
    (signature c req n ts).data.length = 28 := by
  show (base64Chars (hmacSha1 (strBytes c.signing_key)
    (strBytes (signature_base c req n ts)))).length = 28
  rw [base64Chars_length_aux (hmacSha1 (strBytes c.signing_key)
    (strBytes (signature_base c req n ts))).length _ le_rfl, hmacSha1_length]

/-- The ampersand-joining fold never shrinks the accumulator. -/
theorem foldl_amp_length (ys : List String) :
    ∀ acc : String, acc.length ≤ (ys.foldl (fun a y => a ++ "&" ++ y) acc).length := by
  induction ys with
  | nil =>
    intro acc
    simp
  | cons y ys ih =>
    intro acc
    simp only [List.foldl_cons]
    refine le_trans ?_ (ih (acc ++ "&" ++ y))
    simp only [String.length_append]
    omega

/-- C7 counterexample: with zero request parameters the canonical set holds
six parameters, not five — the source inserts `oauth_consumer_key`,
`oauth_nonce`, `oauth_signature_method`, `oauth_timestamp`, `oauth_token`
and `oauth_version`. -/
theorem no_params_count_counterexample :
    (paramList (OAuth10a.new "ck" "csec" "tok" "tsec")
        ⟨Method.get, "https://example.com/x", []⟩ "somenonce" 99).length = 6 ∧
      ¬ (paramList (OAuth10a.new "ck" "csec" "tok" "tsec")
        ⟨Method.get, "https://example.com/x", []⟩ "somenonce" 99).length = 5 := by
  constructor
  · decide
  · decide

/-- C7 as amended: a request with zero request-specific parameters still
produces a well-formed, non-empty parameter string whose members are exactly
the six OAuth protocol parameters, and signing such a request succeeds,
producing a full 28-character base64 signature. -/
theorem no_params_well_formed (c : OAuth10a) (m : Method) (u n : String) (ts : Int) :
    (parameter_string c ⟨m, u, []⟩ n ts).isEmpty = false ∧
      (∀ p, p ∈ paramList c ⟨m, u, []⟩ n ts ↔ p ∈ protocolParams c n ts) ∧
      (signature c ⟨m, u, []⟩ n ts).data.length = 28 := by
  refine ⟨?_, ?_, signature_data_length c ⟨m, u, []⟩ n ts⟩
  · have hmem : ("oauth_version", "1.0") ∈ paramList c ⟨m, u, []⟩ n ts := by
      rw [paramList, foldl_insertSorted_mem]
      simp [protocolParams, encodedRequestParams]
    rcases hl : paramList c ⟨m, u, []⟩ n ts with _ | ⟨kv, rest⟩
    · rw [hl] at hmem
      simp at hmem
    · rw [parameter_string, joinPairs_eq_joinAmp, hl]
      simp only [List.map_cons, joinAmp]
      apply isEmpty_false_of_length_pos
      refine lt_of_lt_of_le ?_ (foldl_amp_length _ (kv.1 ++ "=" ++ kv.2))
      simp only [String.length_append]
      have h1 : ("=" : String).length = 1 := rfl
      omega
  · intro p
    rw [paramList, foldl_insertSorted_mem]
    simp [encodedRequestParams]

/-- C8: signature base string format.  The base string is the uppercase
method name, an ampersand, the percent-encoded base URL, an ampersand, and
the percent-encoded canonical parameter string. -/
theorem signature_base_format (c : OAuth10a) (req : Request) (n : String) (ts : Int) :
    (signature_base c req n ts).data =
      (req.method.as_str).data ++ '&' :: (percent_encode req.base_url).data ++
        '&' :: (percent_encode (parameter_string c req n ts)).data ∧
      (req.method.as_str).data.all (fun ch => ch.isUpper) = true := by
  constructor
  · have hamp : ("&" : String).data = ['&'] := rfl
    simp [signature_base, String.data_append, hamp]
  · cases req.method <;> decide

/-- C9: header assembly format.  The emitted `Authorization` value is the
`OAuth` scheme followed by the seven fields in their fixed order, each value
double-quoted, separated by comma-space, with the base64 signature
percent-encoded before insertion. -/
theorem auth_header_format (c : OAuth10a) (req : Request) (n : String) (ts : Int) :
    auth_header c req n ts =
      "OAuth " ++ joinCommaSpace
        [headerField "oauth_consumer_key" c.api_key_encoded,
         headerField "oauth_nonce" n,
         headerField "oauth_signature" (percent_encode (signature c req n ts)),
         headerField "oauth_signature_method" "HMAC-SHA1",
         headerField "oauth_timestamp" (toString ts),
         headerField "oauth_token" c.access_token_encoded,
         headerField "oauth_version" "1.0"] := by
  have M : ∀ a b c : String, a ++ b = c → ∀ x : String, a ++ (b ++ x) = c ++ x := by
    intro a b c h x
    rw [← String.append_assoc, h]
  have A6 : ("\"" : String) ++ (", " ++ ("oauth_version" ++ ("=\"" ++ ("1.0" ++ "\"")))) =
      "\", oauth_version=\"1.0\"" := by decide
  simp only [auth_header, joinCommaSpace, headerField, List.foldl_cons, List.foldl_nil,
    String.append_assoc]
  simp only [
    M "oauth_consumer_key" "=\"" "oauth_consumer_key=\"" (by decide),
    M "OAuth " "oauth_consumer_key=\"" "OAuth oauth_consumer_key=\"" (by decide),
    M "oauth_nonce" "=\"" "oauth_nonce=\"" (by decide),
    M ", " "oauth_nonce=\"" ", oauth_nonce=\"" (by decide),
    M "\"" ", oauth_nonce=\"" "\", oauth_nonce=\"" (by decide),
    M "oauth_signature" "=\"" "oauth_signature=\"" (by decide),
    M ", " "oauth_signature=\"" ", oauth_signature=\"" (by decide),
    M "\"" ", oauth_signature=\"" "\", oauth_signature=\"" (by decide),
    M "oauth_timestamp" "=\"" "oauth_timestamp=\"" (by decide),
    M ", " "oauth_timestamp=\"" ", oauth_timestamp=\"" (by decide),
    M "\"" ", oauth_timestamp=\"" "\", oauth_timestamp=\"" (by decide),
    M "HMAC-SHA1" "\", oauth_timestamp=\"" "HMAC-SHA1\", oauth_timestamp=\"" (by decide),
    M "=\"" "HMAC-SHA1\", oauth_timestamp=\"" "=\"HMAC-SHA1\", oauth_timestamp=\"" (by decide),
    M "oauth_signature_method" "=\"HMAC-SHA1\", oauth_timestamp=\""
      "oauth_signature_method=\"HMAC-SHA1\", oauth_timestamp=\"" (by decide),
    M ", " "oauth_signature_method=\"HMAC-SHA1\", oauth_timestamp=\""
      ", oauth_signature_method=\"HMAC-SHA1\", oauth_timestamp=\"" (by decide),
    M "\"" ", oauth_signature_method=\"HMAC-SHA1\", oauth_timestamp=\""
      "\", oauth_signature_method=\"HMAC-SHA1\", oauth_timestamp=\"" (by decide),
    M "oauth_token" "=\"" "oauth_token=\"" (by decide),
    M ", " "oauth_token=\"" ", oauth_token=\"" (by decide),
    M "\"" ", oauth_token=\"" "\", oauth_token=\"" (by decide),
    A6]

/-- C10: form-decoder behaviour.  On every non-empty input the decoder
yields one decoded key/value pair and advances to exactly the remainder of
the `&`-split, which is strictly shorter than the input — so every iteration
strictly shrinks the remaining input and terminates; when the first
`&`-delimited segment has no `=`, the key is the whole decoded segment and
the value is empty; empty input yields nothing. -/
theorem form_decoder_step (bs : List Nat) (h1 : bs ≠ []) :
    formNext bs =
        some ((percent_decode_form (split_on_byte (split_on_byte bs 38).1 61).1,
            percent_decode_form (split_on_byte (split_on_byte bs 38).1 61).2),
          (split_on_byte bs 38).2) ∧
      (split_on_byte bs 38).2.length < bs.length ∧
      (¬ 61 ∈ (split_on_byte bs 38).1 →
        formNext bs =
          some ((percent_decode_form (split_on_byte bs 38).1, []), (split_on_byte bs 38).2)) ∧
      formNext [] = none := by
  have hne : bs.isEmpty = false := by
    cases bs with
    | nil => exact absurd rfl h1
    | cons b tl => rfl
  refine ⟨?_, ?_, ?_, rfl⟩
  · simp only [formNext, hne, Bool.false_eq_true, if_false]
  · have hpos : 0 < bs.length := List.length_pos.mpr h1
    rw [split_on_byte]
    cases hidx : List.findIdx? (fun b => b == 38) bs with
    | none => simpa using hpos
    | some i =>
      simp only [List.length_drop]
      omega
  · intro h2
    have hidx : List.findIdx? (fun b => b == 61) (split_on_byte bs 38).1 = none := by
      rw [List.findIdx?_eq_none_iff]
      intro x hx
      simp only [beq_eq_false_iff_ne, ne_eq]
      intro hx61
      exact h2 (hx61 ▸ hx)
    have hsplit : split_on_byte (split_on_byte bs 38).1 61 = ((split_on_byte bs 38).1, []) := by
      rw [split_on_byte, hidx]
    simp only [formNext, hne, Bool.false_eq_true, if_false, hsplit]
    rfl

/-- Witness for C10 on the input `a=b&c`, whose first segment does contain
an equals sign, so the unconditional shrinking conjunct is exercised; the
crate's trailing `baz` segment appears through the inner implication at a
second application. -/
theorem form_decoder_step_witness :
    (formNext [97, 61, 98, 38, 99] =
        some ((percent_decode_form (split_on_byte (split_on_byte [97, 61, 98, 38, 99] 38).1 61).1,
            percent_decode_form (split_on_byte (split_on_byte [97, 61, 98, 38, 99] 38).1 61).2),
          (split_on_byte [97, 61, 98, 38, 99] 38).2) ∧
      (split_on_byte [97, 61, 98, 38, 99] 38).2.length < [97, 61, 98, 38, 99].length ∧
      (¬ 61 ∈ (split_on_byte [97, 61, 98, 38, 99] 38).1 →
        formNext [97, 61, 98, 38, 99] =
          some ((percent_decode_form (split_on_byte [97, 61, 98, 38, 99] 38).1, []),
            (split_on_byte [97, 61, 98, 38, 99] 38).2)) ∧
      formNext [] = none) ∧
      (¬ 61 ∈ (split_on_byte [98, 97, 122] 38).1 →
        formNext [98, 97, 122] =
          some ((percent_decode_form (split_on_byte [98, 97, 122] 38).1, []),
            (split_on_byte [98, 97, 122] 38).2)) :=
  ⟨form_decoder_step [97, 61, 98, 38, 99] (by decide),
    (form_decoder_step [98, 97, 122] (by decide)).2.2.1⟩

end Twitter2
